import Mathlib

/-!
Verification development for the retrieval pipeline of the Lev-Boots RAG
service (`src/server/services/ragService.ts`).

Texts are modelled as `List Char`, numbers as `ℚ` (the similarity value
itself, which involves square roots, is stated over `ℝ`).  Remote calls
(embedding model, HTTP fetches, the SQL store) are modelled as oracles
passed in explicitly; thrown JS exceptions are modelled as `Except`-style
error values threaded together with the mutated database state, so that
the state after a failed operation remains observable.
-/

namespace Rag

/-! ### Chunker (`chunkText`, ragService.ts lines 22-34)

`text.split(/\s+/)` splits on maximal whitespace runs and keeps the empty
token that arises when the text begins (resp. ends) with whitespace; on a
string without any match it returns the whole string, so `splitWs [] = [[]]`.
`splitWsAux cur s` is the state "inside a token with accumulated (reversed)
characters `cur`", `splitWsGap s` the state "just after a separator run".
-/

mutual

def splitWsAux (cur : List Char) : List Char → List (List Char)
  | [] => [cur.reverse]
  | c :: cs =>
    if c.isWhitespace then cur.reverse :: splitWsGap cs
    else splitWsAux (c :: cur) cs

def splitWsGap : List Char → List (List Char)
  | [] => [[]]
  | c :: cs => if c.isWhitespace then splitWsGap cs else splitWsAux [c] cs

end

/-- The token list of `text.split(/\s+/)`. -/
def splitWs (s : List Char) : List (List Char) := splitWsAux [] s

/-- Model of `Array.prototype.join(' ')`: interleave a single space between entries. -/
def joinSpace : List (List Char) → List Char
  | [] => []
  | [w] => w
  | w :: v :: ws => w ++ ' ' :: joinSpace (v :: ws)

/-- Model of `String.prototype.trim()`: drop leading and trailing whitespace. -/
def trimText (s : List Char) : List Char :=
  (((s.dropWhile Char.isWhitespace).reverse.dropWhile Char.isWhitespace)).reverse

/-- Fuel-indexed helper for `windows`; the fuel is an upper bound on the
number of loop iterations (with a positive step, `l.length` suffices). -/
def windowsGo (n : ℕ) : ℕ → List (List Char) → List (List (List Char))
  | 0, _ => []
  | _, [] => []
  | fuel + 1, c :: l => (c :: l).take n :: windowsGo n fuel ((c :: l).drop n)

/-- The index loop `for (let i = 0; i < words.length; i += wordsPerChunk)`
grouping `words.slice(i, i + wordsPerChunk)`.  With `n = 0` the JS loop
never terminates; the model returns `[]` there (no claim concerns it). -/
def windows (n : ℕ) (l : List (List Char)) : List (List (List Char)) :=
  if n = 0 then [] else windowsGo n l.length l

/-- Loop body of `chunkText`: `chunk = words.slice(i, i + n).join(' ')`,
pushed as `chunk.trim()` when `chunk.trim().length > 0`. -/
def chunkOf (w : List (List Char)) : Option (List Char) :=
  if trimText (joinSpace w) = [] then none else some (trimText (joinSpace w))

/-- Function `chunkText` (ragService.ts lines 22-34): split on whitespace, group into
windows of `wordsPerChunk` tokens, join each window with single spaces, trim,
and keep only the non-empty results. -/
def chunkText (text : List Char) (wordsPerChunk : ℕ := 400) : List (List Char) :=
  (windows wordsPerChunk (splitWs text)).filterMap chunkOf

/-- The word sequence of a text: the tokens of `split(/\s+/)` with the
boundary empty tokens dropped. -/
def wordsOf (s : List Char) : List (List Char) :=
  (splitWs s).filter (fun t => t ≠ [])

/-! ### Embedding adapter (`getEmbedding`, ragService.ts lines 37-101) -/

/-- The configured embedding dimension (ragService.ts line 19). -/
def EMBEDDING_DIMENSION : ℕ := 768

/-- Dimension reconciliation of `getEmbedding` (ragService.ts lines 76-92):
the code branches on `EMBEDDING_DIMENSION === 768`; in the 768 branch it
truncates to or zero-pads up to 768, in the other branch to 1536. -/
def normalizeEmbedding (dim : ℕ) (embedding : List ℚ) : List ℚ :=
  if dim = 768 then
    if 768 ≤ embedding.length then embedding.take 768
    else embedding ++ List.replicate (768 - embedding.length) 0
  else
    if 1536 ≤ embedding.length then embedding.take 1536
    else embedding ++ List.replicate (1536 - embedding.length) 0

/-! ### Lemmas about the chunker -/

/-- Specification-level word extraction: accumulate maximal runs of
non-whitespace characters, dropping empty results. -/
def wordsAux : List Char → List Char → List (List Char)
  | cur, [] => if cur = [] then [] else [cur.reverse]
  | cur, c :: s =>
    if c.isWhitespace then
      (if cur = [] then wordsAux [] s else cur.reverse :: wordsAux [] s)
    else wordsAux (c :: cur) s

/-- A list of characters containing no whitespace. -/
def wsFree (t : List Char) : Prop := ∀ c ∈ t, c.isWhitespace = false

/-- A list of characters that is all whitespace. -/
def allWs (t : List Char) : Prop := ∀ c ∈ t, c.isWhitespace = true

theorem splitWs_filter_eq_wordsAux :
    ∀ s : List Char,
      (∀ cur, (splitWsAux cur s).filter (fun t => t ≠ []) = wordsAux cur s) ∧
      (splitWsGap s).filter (fun t => t ≠ []) = wordsAux [] s := by
  intro s
  induction s with
  | nil =>
    constructor
    · intro cur
      by_cases h : cur = [] <;>
        simp [splitWsAux, wordsAux, List.filter, h]
    · simp [splitWsGap, wordsAux, List.filter]
  | cons c s ih =>
    constructor
    · intro cur
      by_cases hw : c.isWhitespace
      · by_cases h : cur = [] <;>
          simp [splitWsAux, wordsAux, hw, h, ← ih.2, List.filter]
      · simp [splitWsAux, wordsAux, hw, ← ih.1]
    · by_cases hw : c.isWhitespace
      · simp [splitWsGap, wordsAux, hw, ← ih.2]
      · simp [splitWsGap, wordsAux, hw, ← ih.1 [c]]

theorem wordsOf_eq_wordsAux (s : List Char) : wordsOf s = wordsAux [] s :=
  (splitWs_filter_eq_wordsAux s).1 []

theorem wordsOf_nil : wordsOf [] = [] := by decide

/-- Every token produced by `splitWs` is whitespace-free. -/
theorem splitWs_wsFree :
    ∀ s : List Char,
      (∀ cur, wsFree cur → ∀ t ∈ splitWsAux cur s, wsFree t) ∧
      (∀ t ∈ splitWsGap s, wsFree t) := by
  intro s
  induction s with
  | nil =>
    constructor
    · intro cur hcur t ht
      simp [splitWsAux] at ht
      subst ht
      intro c hc
      exact hcur c (List.mem_reverse.mp hc)
    · intro t ht
      simp [splitWsGap] at ht
      subst ht
      intro c hc
      simp at hc
  | cons c s ih =>
    constructor
    · intro cur hcur t ht
      by_cases hw : c.isWhitespace
      · simp [splitWsAux, hw] at ht
        rcases ht with h | h
        · subst h
          intro d hd
          exact hcur d (List.mem_reverse.mp hd)
        · exact ih.2 t h
      · simp [splitWsAux, hw] at ht
        refine ih.1 (c :: cur) ?_ t ht
        intro d hd
        rcases List.mem_cons.mp hd with h | h
        · subst h
          simpa using hw
        · exact hcur d h
    · intro t ht
      by_cases hw : c.isWhitespace
      · simp [splitWsGap, hw] at ht
        exact ih.2 t ht
      · simp [splitWsGap, hw] at ht
        refine ih.1 [c] ?_ t ht
        intro d hd
        simp at hd
        subst hd
        simpa using hw

theorem wsFree_of_mem_splitWs {s t : List Char} (h : t ∈ splitWs s) : wsFree t :=
  (splitWs_wsFree s).1 [] (by intro c hc; simp at hc) t h

/-- On a whitespace-free suffix, `wordsAux` just closes the current word. -/
theorem wordsAux_wsFree {a : List Char} (ha : wsFree a) :
    ∀ cur, wordsAux cur a =
      if cur.reverse ++ a = [] then [] else [cur.reverse ++ a] := by
  induction a with
  | nil =>
    intro cur
    by_cases h : cur = [] <;> simp [wordsAux, h]
  | cons c a ih =>
    intro cur
    have hc : c.isWhitespace = false := ha c (List.mem_cons_self c a)
    have ha' : wsFree a := fun d hd => ha d (List.mem_cons_of_mem c hd)
    simp [wordsAux, hc, ih ha']

/-- Crossing a single separator after a whitespace-free run. -/
theorem wordsAux_append_space {a : List Char} (ha : wsFree a) :
    ∀ cur rest, wordsAux cur (a ++ ' ' :: rest) =
      if cur.reverse ++ a = [] then wordsAux [] rest
      else (cur.reverse ++ a) :: wordsAux [] rest := by
  induction a with
  | nil =>
    intro cur rest
    by_cases h : cur = [] <;> simp [wordsAux, h]
  | cons c a ih =>
    intro cur rest
    have hc : c.isWhitespace = false := ha c (List.mem_cons_self c a)
    have ha' : wsFree a := fun d hd => ha d (List.mem_cons_of_mem c hd)
    simp [wordsAux, hc, ih ha']

/-- The words of a space-join of whitespace-free tokens are exactly the
non-empty tokens. -/
theorem wordsAux_joinSpace :
    ∀ w : List (List Char), (∀ t ∈ w, wsFree t) →
      wordsAux [] (joinSpace w) = w.filter (fun t => t ≠ []) := by
  intro w
  induction w with
  | nil => intro _; simp [joinSpace, wordsAux]
  | cons a w ih =>
    intro hw
    have ha : wsFree a := hw a (List.mem_cons_self a w)
    have hw' : ∀ t ∈ w, wsFree t := fun t ht => hw t (List.mem_cons_of_mem a ht)
    cases w with
    | nil =>
      by_cases h : a = [] <;>
        simp [joinSpace, wordsAux_wsFree ha, h, List.filter, wordsAux]
    | cons b w' =>
      have hj : joinSpace (a :: b :: w') = a ++ ' ' :: joinSpace (b :: w') := rfl
      rw [hj, wordsAux_append_space ha [] (joinSpace (b :: w'))]
      by_cases h : a = [] <;> simp [h, ih hw', List.filter]

theorem wordsAux_allWs {t : List Char} (ht : allWs t) :
    ∀ cur, wordsAux cur t = if cur = [] then [] else [cur.reverse] := by
  induction t with
  | nil => intro cur; simp [wordsAux]
  | cons c t ih =>
    intro cur
    have hc : c.isWhitespace = true := ht c (List.mem_cons_self c t)
    have ht' : allWs t := fun d hd => ht d (List.mem_cons_of_mem c hd)
    by_cases h : cur = [] <;> simp [wordsAux, hc, h, ih ht']

/-- Trailing whitespace does not change the extracted words. -/
theorem wordsAux_append_allWs {t : List Char} (ht : allWs t) :
    ∀ s cur, wordsAux cur (s ++ t) = wordsAux cur s := by
  intro s
  induction s with
  | nil =>
    intro cur
    by_cases h : cur = [] <;> simp [wordsAux_allWs ht, wordsAux, h]
  | cons c s ih =>
    intro cur
    by_cases hw : c.isWhitespace
    · by_cases h : cur = [] <;> simp [wordsAux, hw, h, ih]
    · simp [wordsAux, hw, ih]

/-- Leading whitespace does not change the extracted words. -/
theorem wordsAux_dropWhile (s : List Char) :
    wordsAux [] (s.dropWhile Char.isWhitespace) = wordsAux [] s := by
  induction s with
  | nil => rfl
  | cons c s ih =>
    by_cases hw : c.isWhitespace
    · simp [List.dropWhile, hw, wordsAux, ih]
    · simp [List.dropWhile, hw]

/-- Trimming does not change the word sequence. -/
theorem wordsOf_trimText (s : List Char) : wordsOf (trimText s) = wordsOf s := by
  rw [wordsOf_eq_wordsAux, wordsOf_eq_wordsAux, trimText]
  set s1 := s.dropWhile Char.isWhitespace with hs1
  have hdec : s1 = (s1.reverse.dropWhile Char.isWhitespace).reverse ++
      (s1.reverse.takeWhile Char.isWhitespace).reverse := by
    have := List.takeWhile_append_dropWhile (p := Char.isWhitespace) (l := s1.reverse)
    calc s1 = s1.reverse.reverse := (List.reverse_reverse s1).symm
      _ = (s1.reverse.takeWhile Char.isWhitespace ++
            s1.reverse.dropWhile Char.isWhitespace).reverse := by rw [this]
      _ = _ := by rw [List.reverse_append]
  have hws : allWs (s1.reverse.takeWhile Char.isWhitespace).reverse := by
    intro c hc
    exact List.mem_takeWhile_imp (List.mem_reverse.mp hc)
  calc wordsAux [] (s1.reverse.dropWhile Char.isWhitespace).reverse
      = wordsAux [] ((s1.reverse.dropWhile Char.isWhitespace).reverse ++
          (s1.reverse.takeWhile Char.isWhitespace).reverse) :=
        (wordsAux_append_allWs hws _ []).symm
    _ = wordsAux [] s1 := by rw [← hdec]
    _ = wordsAux [] s := wordsAux_dropWhile s

theorem windowsGo_nil (n : ℕ) : ∀ fuel, windowsGo n fuel [] = [] := by
  intro fuel
  cases fuel <;> rfl

theorem windowsGo_fuel (n : ℕ) (hn : n ≠ 0) :
    ∀ fuel fuel' (l : List (List Char)), l.length ≤ fuel → l.length ≤ fuel' →
      windowsGo n fuel l = windowsGo n fuel' l := by
  intro fuel
  induction fuel with
  | zero =>
    intro fuel' l hl _
    have : l = [] := List.length_eq_zero.mp (Nat.le_zero.mp hl)
    subst this
    rw [windowsGo_nil, windowsGo_nil]
  | succ fuel ih =>
    intro fuel' l hl hl'
    cases l with
    | nil => rw [windowsGo_nil, windowsGo_nil]
    | cons c t =>
      cases fuel' with
      | zero => simp at hl'
      | succ fuel' =>
        show (c :: t).take n :: windowsGo n fuel ((c :: t).drop n) =
          (c :: t).take n :: windowsGo n fuel' ((c :: t).drop n)
        have hd : ((c :: t).drop n).length ≤ t.length := by
          simp [List.length_drop]
          omega
        rw [ih fuel' ((c :: t).drop n) (le_trans hd (by simpa using hl))
          (le_trans hd (by simpa using hl'))]

theorem windows_nil (n : ℕ) : windows n [] = [] := by
  unfold windows
  split
  · rfl
  · exact windowsGo_nil n 0

theorem windows_cons (n : ℕ) (hn : n ≠ 0) (l : List (List Char)) (hl : l ≠ []) :
    windows n l = l.take n :: windows n (l.drop n) := by
  obtain ⟨c, t, rfl⟩ := List.exists_cons_of_ne_nil hl
  unfold windows
  rw [if_neg hn, if_neg hn]
  show (c :: t).take n :: windowsGo n t.length ((c :: t).drop n) = _
  congr 1
  refine windowsGo_fuel n hn t.length ((c :: t).drop n).length ((c :: t).drop n) ?_ le_rfl
  simp [List.length_drop]
  omega

theorem windowsGo_flatten (n : ℕ) (hn : n ≠ 0) :
    ∀ fuel (l : List (List Char)), l.length ≤ fuel →
      (windowsGo n fuel l).flatten = l := by
  intro fuel
  induction fuel with
  | zero =>
    intro l hl
    have : l = [] := List.length_eq_zero.mp (Nat.le_zero.mp hl)
    subst this
    rfl
  | succ fuel ih =>
    intro l hl
    cases l with
    | nil => rfl
    | cons c t =>
      show ((c :: t).take n :: windowsGo n fuel ((c :: t).drop n)).flatten = c :: t
      rw [List.flatten_cons, ih ((c :: t).drop n) (by simp [List.length_drop] at hl ⊢; omega),
        List.take_append_drop]

theorem windows_flatten (n : ℕ) (hn : n ≠ 0) (l : List (List Char)) :
    (windows n l).flatten = l := by
  unfold windows
  rw [if_neg hn]
  exact windowsGo_flatten n hn l.length l le_rfl

theorem mem_of_mem_windows {n : ℕ} (hn : n ≠ 0) {l : List (List Char)}
    {w : List (List Char)} {t : List Char} (hw : w ∈ windows n l) (ht : t ∈ w) :
    t ∈ l := by
  rw [← windows_flatten n hn l]
  exact List.mem_flatten_of_mem hw ht

theorem windowsGo_dropLast (n : ℕ) (hn : n ≠ 0) :
    ∀ fuel (l : List (List Char)), l.length ≤ fuel →
      ∀ w ∈ (windowsGo n fuel l).dropLast,
        w.length = n ∧ ∀ t ∈ w, t ∈ l.dropLast := by
  intro fuel
  induction fuel with
  | zero =>
    intro l hl w hw
    have : l = [] := List.length_eq_zero.mp (Nat.le_zero.mp hl)
    subst this
    simp [windowsGo] at hw
  | succ fuel ih =>
    intro l hl w hw
    cases l with
    | nil => simp [windowsGo] at hw
    | cons c t =>
      set l := c :: t with hlc
      show w.length = n ∧ ∀ x ∈ w, x ∈ l.dropLast
      have hgo : windowsGo n (fuel + 1) l = l.take n :: windowsGo n fuel (l.drop n) := rfl
      rw [hgo] at hw
      by_cases hrest : windowsGo n fuel (l.drop n) = []
      · rw [hrest] at hw
        simp at hw
      · rw [List.dropLast_cons_of_ne_nil hrest] at hw
        have hdrop_ne : l.drop n ≠ [] := by
          intro h
          rw [h, windowsGo_nil] at hrest
          exact hrest rfl
        have hlen : n < l.length := by
          by_contra h
          push_neg at h
          exact hdrop_ne (List.drop_eq_nil_of_le h)
        rcases List.mem_cons.mp hw with h | h
        · subst h
          constructor
          · rw [List.length_take]
            omega
          · intro x hx
            have : l.take n = (l.dropLast).take n := by
              rw [List.dropLast_eq_take, List.take_take, min_eq_left (by omega)]
            rw [this] at hx
            exact List.take_subset n l.dropLast hx
        · have hlen' : (l.drop n).length ≤ fuel := by
            simp [List.length_drop] at hl ⊢
            omega
          obtain ⟨h1, h2⟩ := ih (l.drop n) hlen' w h
          refine ⟨h1, fun x hx => ?_⟩
          have hmem := h2 x hx
          have : (l.drop n).dropLast = l.dropLast.drop n := by
            rw [List.dropLast_eq_take, List.dropLast_eq_take, List.drop_take,
              List.length_drop]
            congr 1
            omega
          rw [this] at hmem
          exact List.drop_subset n l.dropLast hmem

theorem windows_dropLast (n : ℕ) (hn : n ≠ 0) (l : List (List Char)) :
    ∀ w ∈ (windows n l).dropLast, w.length = n ∧ ∀ t ∈ w, t ∈ l.dropLast := by
  unfold windows
  rw [if_neg hn]
  exact windowsGo_dropLast n hn l.length l le_rfl

/-- Functions `splitWsAux` and `splitWsGap` always produce at least one token. -/
theorem splitWs_ne_nil :
    ∀ s : List Char, (∀ cur, splitWsAux cur s ≠ []) ∧ splitWsGap s ≠ [] := by
  intro s
  induction s with
  | nil => exact ⟨fun cur => by simp [splitWsAux], by simp [splitWsGap]⟩
  | cons c s ih =>
    constructor
    · intro cur
      by_cases hw : c.isWhitespace <;> simp [splitWsAux, hw, ih.1]
    · by_cases hw : c.isWhitespace <;> simp [splitWsGap, hw, ih.2, ih.1]

/-- On input that does not begin with whitespace, every token of `splitWs`
except possibly the last is non-empty. -/
theorem splitWs_dropLast_ne_nil :
    ∀ s : List Char,
      (∀ cur, cur ≠ [] → ∀ t ∈ (splitWsAux cur s).dropLast, t ≠ []) ∧
      (∀ t ∈ (splitWsGap s).dropLast, t ≠ []) := by
  intro s
  induction s with
  | nil =>
    constructor
    · intro cur _ t ht
      simp [splitWsAux] at ht
    · intro t ht
      simp [splitWsGap] at ht
  | cons c s ih =>
    constructor
    · intro cur hcur t ht
      by_cases hw : c.isWhitespace
      · rw [show splitWsAux cur (c :: s) = cur.reverse :: splitWsGap s by
            simp [splitWsAux, hw]] at ht
        rw [List.dropLast_cons_of_ne_nil (splitWs_ne_nil s).2] at ht
        rcases List.mem_cons.mp ht with h | h
        · subst h
          simpa using hcur
        · exact ih.2 t h
      · rw [show splitWsAux cur (c :: s) = splitWsAux (c :: cur) s by
            simp [splitWsAux, hw]] at ht
        exact ih.1 (c :: cur) (by simp) t ht
    · intro t ht
      by_cases hw : c.isWhitespace
      · rw [show splitWsGap (c :: s) = splitWsGap s by simp [splitWsGap, hw]] at ht
        exact ih.2 t ht
      · rw [show splitWsGap (c :: s) = splitWsAux [c] s by simp [splitWsGap, hw]] at ht
        exact ih.1 [c] (by simp) t ht

theorem splitWs_dropLast_of_head (s : List Char)
    (hs : ∀ c, s.head? = some c → c.isWhitespace = false) :
    ∀ t ∈ (splitWs s).dropLast, t ≠ [] := by
  cases s with
  | nil =>
    intro t ht
    simp [splitWs, splitWsAux] at ht
  | cons c s' =>
    have hc : c.isWhitespace = false := hs c rfl
    intro t ht
    rw [show splitWs (c :: s') = splitWsAux [c] s' by simp [splitWs, splitWsAux, hc]] at ht
    exact (splitWs_dropLast_ne_nil s').1 [c] (by simp) t ht

/-- Elements of the `dropLast` of a `filterMap` come from the `dropLast` of
the original list, provided no element of the latter is dropped. -/
theorem filterMap_dropLast {α β : Type} (f : α → Option β) :
    ∀ W : List α, (∀ w ∈ W.dropLast, f w ≠ none) →
      ∀ c ∈ (W.filterMap f).dropLast, ∃ w ∈ W.dropLast, f w = some c := by
  intro W
  induction W with
  | nil => intro _ c hc; simp at hc
  | cons w W' ih =>
    intro hW c hc
    cases W' with
    | nil =>
      rcases h : f w with _ | cw <;> simp [List.filterMap_cons, h] at hc
    | cons w2 W'' =>
      have hwmem : w ∈ (w :: w2 :: W'').dropLast := by
        rw [List.dropLast_cons_of_ne_nil (by simp)]
        exact List.mem_cons_self w _
      rcases hfw : f w with _ | cw
      · exact absurd hfw (hW w hwmem)
      · rw [List.filterMap_cons, hfw] at hc
        by_cases hM : (w2 :: W'').filterMap f = []
        · rw [hM] at hc
          simp at hc
        · rw [List.dropLast_cons_of_ne_nil hM] at hc
          rcases List.mem_cons.mp hc with h | h
          · subst h
            exact ⟨w, hwmem, hfw⟩
          · obtain ⟨w', hw', hfw'⟩ := ih
              (fun v hv => hW v (by
                rw [List.dropLast_cons_of_ne_nil (by simp)]
                exact List.mem_cons_of_mem w hv)) c h
            refine ⟨w', ?_, hfw'⟩
            rw [List.dropLast_cons_of_ne_nil (by simp)]
            exact List.mem_cons_of_mem w hw'

theorem flatten_map_wordsOf_filterMap (W : List (List (List Char))) :
    ((W.filterMap chunkOf).map wordsOf).flatten =
      (W.map (fun w => wordsOf (trimText (joinSpace w)))).flatten := by
  induction W with
  | nil => rfl
  | cons w W ih =>
    by_cases h : trimText (joinSpace w) = []
    · rw [List.map_cons, List.flatten_cons, List.filterMap_cons,
        show chunkOf w = none by simp [chunkOf, h], ih, h, wordsOf_nil,
        List.nil_append]
    · rw [List.map_cons, List.flatten_cons, List.filterMap_cons,
        show chunkOf w = some (trimText (joinSpace w)) by simp [chunkOf, h],
        List.map_cons, List.flatten_cons, ih]

/-- The words of the chunk built from a window of whitespace-free tokens are
exactly the window's non-empty tokens. -/
theorem wordsOf_chunk (w : List (List Char)) (hw : ∀ t ∈ w, wsFree t) :
    wordsOf (trimText (joinSpace w)) = w.filter (fun t => t ≠ []) := by
  rw [wordsOf_trimText, wordsOf_eq_wordsAux]
  exact wordsAux_joinSpace w hw

/-- C4: concatenating, in order, the word sequences of the chunks returned
by `chunkText` reproduces the word sequence of the original text. -/
theorem chunkText_preserves_words (text : List Char) (n : ℕ)
    (_htext : text ≠ []) (hn : 0 < n) :
    ((chunkText text n).map wordsOf).flatten = wordsOf text := by
  have hn' : n ≠ 0 := hn.ne'
  unfold chunkText
  rw [flatten_map_wordsOf_filterMap]
  have hcongr : (windows n (splitWs text)).map
      (fun w => wordsOf (trimText (joinSpace w))) =
      (windows n (splitWs text)).map (fun w => w.filter (fun t => t ≠ [])) := by
    refine List.map_congr_left ?_
    intro w hwmem
    refine wordsOf_chunk w ?_
    intro t ht
    exact wsFree_of_mem_splitWs (mem_of_mem_windows hn' hwmem ht)
  rw [hcongr, ← List.filter_flatten, windows_flatten n hn']
  rfl

/-- C4 witness: concrete instance of word preservation. -/
theorem chunkText_preserves_words_witness :
    (("hello world foo".data ≠ []) ∧ 0 < 2) ∧
      ((chunkText ("hello world foo".data) 2).map wordsOf).flatten =
        wordsOf ("hello world foo".data) :=
  ⟨⟨by decide, by decide⟩,
    chunkText_preserves_words ("hello world foo".data) 2 (by decide) (by decide)⟩

/-- C7 counterexample: for the text `" a b c"` (leading whitespace) and
window size 2, the first (non-final) chunk is `"a"`, which has 1 word, not
2: the window grouping acts on the raw `split(/\s+/)` token array, whose
first token is empty for a text with leading whitespace. -/
theorem chunkText_window_counterexample :
    ¬ (∀ ch ∈ (chunkText (" a b c".data) 2).dropLast, (wordsOf ch).length = 2) := by
  decide

/-- C7 amended: for every input text that does not begin with whitespace and
every positive window size, every non-final chunk returned by `chunkText`
contains exactly `windowSize` words. -/
theorem chunkText_nonfinal_chunk_size (text : List Char) (n : ℕ) (hn : 0 < n)
    (hhead : ∀ c, text.head? = some c → c.isWhitespace = false) :
    ∀ ch ∈ (chunkText text n).dropLast, (wordsOf ch).length = n := by
  have hn' : n ≠ 0 := hn.ne'
  have hfull : ∀ w ∈ (windows n (splitWs text)).dropLast,
      wordsOf (trimText (joinSpace w)) = w ∧ w.length = n := by
    intro w hw
    obtain ⟨hlen, hmem⟩ := windows_dropLast n hn' (splitWs text) w hw
    have hne : ∀ t ∈ w, t ≠ [] := fun t ht =>
      splitWs_dropLast_of_head text hhead t (hmem t ht)
    have hfree : ∀ t ∈ w, wsFree t := fun t ht =>
      wsFree_of_mem_splitWs (List.dropLast_subset (splitWs text) (hmem t ht))
    refine ⟨?_, hlen⟩
    rw [wordsOf_chunk w hfree]
    refine List.filter_eq_self.mpr ?_
    intro t ht
    simpa using hne t ht
  have hnotnone : ∀ w ∈ (windows n (splitWs text)).dropLast, chunkOf w ≠ none := by
    intro w hw
    obtain ⟨hwords, hlen⟩ := hfull w hw
    have hne : trimText (joinSpace w) ≠ [] := by
      intro h
      rw [h, wordsOf_nil] at hwords
      rw [← hwords] at hlen
      simp at hlen
      omega
    simp [chunkOf, hne]
  intro ch hch
  obtain ⟨w, hw, hfw⟩ := filterMap_dropLast chunkOf _ hnotnone ch hch
  obtain ⟨hwords, hlen⟩ := hfull w hw
  have hch_eq : ch = trimText (joinSpace w) := by
    by_cases h : trimText (joinSpace w) = [] <;> simp [chunkOf, h] at hfw
    exact hfw.symm
  rw [hch_eq, hwords, hlen]

/-- C7 amended witness: concrete instance. -/
theorem chunkText_nonfinal_chunk_size_witness :
    (0 < 2 ∧ (∀ c, ("a b c".data).head? = some c → c.isWhitespace = false)) ∧
      ∀ ch ∈ (chunkText ("a b c".data) 2).dropLast, (wordsOf ch).length = 2 :=
  ⟨⟨by decide, by decide⟩,
    chunkText_nonfinal_chunk_size ("a b c".data) 2 (by decide) (by decide)⟩

/-! ### Knowledge store rows and vector similarity
(`findSimilarChunks`, ragService.ts lines 414-481)

A stored row of the `knowledge_base` table; `embedding` is the value of the
active `embeddings_768`/`embeddings_1536` column (`none` = SQL NULL). -/

structure Row where
  source : List Char
  source_id : List Char
  chunk_index : ℕ
  chunk_content : List Char
  embedding : Option (List ℚ)
deriving DecidableEq

/-- Dot product of two stored vectors. -/
def dotQ (a b : List ℚ) : ℚ := (List.zipWith (fun x y => x * y) a b).sum

/-- Cosine distance as computed by pgvector, the `<=>` operator used in the `ORDER BY`. -/
noncomputable def cosineDistance (a b : List ℚ) : ℝ :=
  1 - (dotQ a b : ℝ) / (Real.sqrt (dotQ a a) * Real.sqrt (dotQ b b))

/-- The `similarity` column of the search query:
`1 - (embedding <=> queryVector)`. -/
noncomputable def cosineSimilarity (a b : List ℚ) : ℝ := 1 - cosineDistance a b

theorem cosineSimilarity_eq (a b : List ℚ) :
    cosineSimilarity a b =
      (dotQ a b : ℝ) / (Real.sqrt (dotQ a a) * Real.sqrt (dotQ b b)) := by
  unfold cosineSimilarity cosineDistance
  ring

/-- Scalar core of the `ORDER BY` comparison: decides
`y / (√B·√Q) ≤ x / (√A·√Q)` over `ℚ` by comparing signs and squared
cross-products (`x`,`y` the dot products with the query, `A`,`B` the squared
norms). -/
def simGEscalar (x y A B : ℚ) : Bool :=
  if 0 < x then
    (if 0 < y then decide (y ^ 2 * A ≤ x ^ 2 * B) else true)
  else if x = 0 then decide (y ≤ 0)
  else if 0 ≤ y then false
  else decide (x ^ 2 * B ≤ y ^ 2 * A)

/-- Decidable comparison implementing the `ORDER BY embedding <=> query`
ranking: `simGE q a b` holds when the cosine similarity of `a` to `q` is at
least that of `b` to `q` (equivalently, `a`'s cosine distance is at most
`b`'s). -/
def simGE (q a b : List ℚ) : Bool :=
  simGEscalar (dotQ a q) (dotQ b q) (dotQ a a) (dotQ b b)

theorem dotQ_comm : ∀ a b : List ℚ, dotQ a b = dotQ b a := by
  intro a
  induction a with
  | nil => intro b; cases b <;> rfl
  | cons x a ih =>
    intro b
    cases b with
    | nil => rfl
    | cons y b =>
      show x * y + dotQ a b = y * x + dotQ b a
      rw [ih b, mul_comm]

theorem dotQ_self_nonneg : ∀ a : List ℚ, 0 ≤ dotQ a a := by
  intro a
  induction a with
  | nil => exact le_refl 0
  | cons x a ih =>
    show 0 ≤ x * x + dotQ a a
    have := mul_self_nonneg x
    linarith

theorem dotQ_eq_zero_of_self {a : List ℚ} (h : dotQ a a = 0) :
    ∀ b, dotQ a b = 0 := by
  induction a with
  | nil => intro b; cases b <;> rfl
  | cons x a ih =>
    intro b
    have hx : x * x + dotQ a a = 0 := h
    have h1 : x = 0 ∧ dotQ a a = 0 := by
      have := mul_self_nonneg x
      have := dotQ_self_nonneg a
      constructor
      · nlinarith
      · linarith [mul_self_nonneg x]
    cases b with
    | nil => rfl
    | cons y b =>
      show x * y + dotQ a b = 0
      rw [h1.1, ih h1.2 b, zero_mul, add_zero]

theorem sq_le_sq_iff_of_nonneg {u v : ℝ} (hu : 0 ≤ u) (hv : 0 ≤ v) :
    u ≤ v ↔ u ^ 2 ≤ v ^ 2 :=
  ⟨fun h => pow_le_pow_left hu h 2, fun h => le_of_pow_le_pow_left two_ne_zero hv h⟩

theorem sq_le_sq_iff_of_nonpos {u v : ℝ} (hu : u ≤ 0) (hv : v ≤ 0) :
    u ≤ v ↔ v ^ 2 ≤ u ^ 2 := by
  have h1 : u ≤ v ↔ -v ≤ -u := by constructor <;> intro h <;> linarith
  rw [h1, sq_le_sq_iff_of_nonneg (by linarith) (by linarith)]
  constructor <;> intro h <;> nlinarith

/-- The scalar comparison decides the real inequality of the normalized
dot products, given the sign facts that hold for genuine dot products. -/
theorem simGEscalar_iff (x y A B : ℚ) (hA0 : 0 ≤ A) (hB0 : 0 ≤ B)
    (hxA : A = 0 → x = 0) (hyB : B = 0 → y = 0) :
    simGEscalar x y A B = true ↔
      (y : ℝ) / Real.sqrt B ≤ (x : ℝ) / Real.sqrt A := by
  have hA0' : (0:ℝ) ≤ (A:ℝ) := by exact_mod_cast hA0
  have hB0' : (0:ℝ) ≤ (B:ℝ) := by exact_mod_cast hB0
  by_cases hx : 0 < x
  · have hA : (0:ℚ) < A := by
      rcases lt_or_eq_of_le hA0 with h | h
      · exact h
      · exact absurd (hxA h.symm) (ne_of_gt hx)
    have hsA : (0:ℝ) < Real.sqrt A := Real.sqrt_pos.mpr (by exact_mod_cast hA)
    rw [show simGEscalar x y A B =
        (if 0 < y then decide (y ^ 2 * A ≤ x ^ 2 * B) else true) by
      simp [simGEscalar, hx]]
    by_cases hy : 0 < y
    · have hB : (0:ℚ) < B := by
        rcases lt_or_eq_of_le hB0 with h | h
        · exact h
        · exact absurd (hyB h.symm) (ne_of_gt hy)
      have hsB : (0:ℝ) < Real.sqrt B := Real.sqrt_pos.mpr (by exact_mod_cast hB)
      rw [if_pos hy, decide_eq_true_eq, div_le_div_iff hsB hsA]
      have hu : (0:ℝ) ≤ (y:ℝ) * Real.sqrt A :=
        mul_nonneg (by exact_mod_cast hy.le) (Real.sqrt_nonneg _)
      have hv : (0:ℝ) ≤ (x:ℝ) * Real.sqrt B :=
        mul_nonneg (by exact_mod_cast hx.le) (Real.sqrt_nonneg _)
      rw [sq_le_sq_iff_of_nonneg hu hv, mul_pow, mul_pow,
        Real.sq_sqrt hA0', Real.sq_sqrt hB0']
      constructor
      · intro h; exact_mod_cast h
      · intro h; exact_mod_cast h
    · rw [if_neg hy]
      push_neg at hy
      constructor
      · intro _
        have h1 : (y:ℝ) / Real.sqrt B ≤ 0 :=
          div_nonpos_iff.mpr (Or.inr ⟨by exact_mod_cast hy, Real.sqrt_nonneg _⟩)
        have h2 : (0:ℝ) < (x:ℝ) / Real.sqrt A :=
          div_pos (by exact_mod_cast hx) hsA
        linarith
      · intro _; rfl
  · by_cases hx0 : x = 0
    · subst hx0
      rw [show simGEscalar 0 y A B = decide (y ≤ 0) by simp [simGEscalar],
        decide_eq_true_eq, Rat.cast_zero, zero_div]
      by_cases hB : B = 0
      · have hy0 : y = 0 := hyB hB
        subst hy0
        simp
      · have hBpos : (0:ℚ) < B := lt_of_le_of_ne hB0 (Ne.symm hB)
        have hsB : (0:ℝ) < Real.sqrt B := Real.sqrt_pos.mpr (by exact_mod_cast hBpos)
        rw [div_le_iff hsB, zero_mul]
        constructor
        · intro h; exact_mod_cast h
        · intro h; exact_mod_cast h
    · have hxneg : x < 0 := lt_of_le_of_ne (not_lt.mp hx) hx0
      have hA : (0:ℚ) < A := by
        rcases lt_or_eq_of_le hA0 with h | h
        · exact h
        · exact absurd (hxA h.symm) hx0
      have hsA : (0:ℝ) < Real.sqrt A := Real.sqrt_pos.mpr (by exact_mod_cast hA)
      rw [show simGEscalar x y A B =
          (if 0 ≤ y then false else decide (x ^ 2 * B ≤ y ^ 2 * A)) by
        simp [simGEscalar, hx, hx0]]
      by_cases hy : 0 ≤ y
      · rw [if_pos hy]
        constructor
        · intro h; simp at h
        · intro h
          exfalso
          have h1 : (x:ℝ) / Real.sqrt A < 0 :=
            div_neg_of_neg_of_pos (by exact_mod_cast hxneg) hsA
          have h2 : (0:ℝ) ≤ (y:ℝ) / Real.sqrt B :=
            div_nonneg (by exact_mod_cast hy) (Real.sqrt_nonneg _)
          linarith
      · push_neg at hy
        have hB : (0:ℚ) < B := by
          rcases lt_or_eq_of_le hB0 with h | h
          · exact h
          · exact absurd (hyB h.symm) (ne_of_lt hy)
        have hsB : (0:ℝ) < Real.sqrt B := Real.sqrt_pos.mpr (by exact_mod_cast hB)
        rw [if_neg (not_le.mpr hy), decide_eq_true_eq, div_le_div_iff hsB hsA]
        have hu : (y:ℝ) * Real.sqrt A ≤ 0 :=
          mul_nonpos_iff.mpr (Or.inr ⟨by exact_mod_cast hy.le, Real.sqrt_nonneg _⟩)
        have hv : (x:ℝ) * Real.sqrt B ≤ 0 :=
          mul_nonpos_iff.mpr (Or.inr ⟨by exact_mod_cast hxneg.le, Real.sqrt_nonneg _⟩)
        rw [sq_le_sq_iff_of_nonpos hu hv, mul_pow, mul_pow,
          Real.sq_sqrt hA0', Real.sq_sqrt hB0']
        constructor
        · intro h; exact_mod_cast h
        · intro h; exact_mod_cast h

/-- Bridge between the decidable comparison and the real-valued cosine
similarity. -/
theorem simGE_iff (q a b : List ℚ) :
    simGE q a b = true ↔
      cosineSimilarity b q ≤ cosineSimilarity a q := by
  by_cases hQ : dotQ q q = 0
  · have hx : dotQ a q = 0 := by
      rw [dotQ_comm]; exact dotQ_eq_zero_of_self hQ a
    have hy : dotQ b q = 0 := by
      rw [dotQ_comm]; exact dotQ_eq_zero_of_self hQ b
    rw [cosineSimilarity_eq, cosineSimilarity_eq, hx, hy]
    simp [simGE, simGEscalar, hx, hy]
  · have hQpos : (0:ℚ) < dotQ q q :=
      lt_of_le_of_ne (dotQ_self_nonneg q) (Ne.symm hQ)
    have hsQ : (0:ℝ) < Real.sqrt (dotQ q q) :=
      Real.sqrt_pos.mpr (by exact_mod_cast hQpos)
    have hsim : ∀ v : List ℚ, cosineSimilarity v q =
        ((dotQ v q : ℝ) / Real.sqrt (dotQ v v)) / Real.sqrt (dotQ q q) := by
      intro v
      rw [cosineSimilarity_eq, div_div]
    rw [hsim a, hsim b, div_le_div_right hsQ]
    exact simGEscalar_iff (dotQ a q) (dotQ b q) (dotQ a a) (dotQ b b)
      (dotQ_self_nonneg a) (dotQ_self_nonneg b)
      (fun h => dotQ_eq_zero_of_self h q) (fun h => dotQ_eq_zero_of_self h q)

/-- Row-level `ORDER BY` relation: `rowSimGE q r1 r2` holds when `r1` sorts
no later than `r2` (its stored embedding is at least as similar to `q`). -/
@[reducible] def rowSimGE (q : List ℚ) (r1 r2 : Row) : Prop :=
  simGE q (r1.embedding.getD []) (r2.embedding.getD []) = true

/-- The non-guarded branch of `findSimilarChunks`: the SQL query
`SELECT ... WHERE <field> IS NOT NULL ORDER BY <field> <=> <query> LIMIT k`
over the stored rows, modelled as filter + stable sort + take. -/
def similarMain (db : List Row) (q : List ℚ) (limit : ℕ) : List Row :=
  ((db.filter (fun r => r.embedding.isSome)).insertionSort (rowSimGE q)).take limit

/-- Function `findSimilarChunks` (ragService.ts lines 414-481): a query vector whose
length differs from the configured dimension is rejected by returning `[]`
(lines 423-427); otherwise the similarity query runs. -/
def findSimilarChunks (dim : ℕ) (db : List Row) (q : List ℚ) (limit : ℕ) :
    List Row :=
  if q.length ≠ dim then [] else similarMain db q limit

theorem rowSimGE_total (q : List ℚ) (r1 r2 : Row) :
    rowSimGE q r1 r2 ∨ rowSimGE q r2 r1 := by
  rcases le_total (cosineSimilarity (r2.embedding.getD []) q)
    (cosineSimilarity (r1.embedding.getD []) q) with h | h
  · exact Or.inl ((simGE_iff q _ _).mpr h)
  · exact Or.inr ((simGE_iff q _ _).mpr h)

theorem rowSimGE_trans (q : List ℚ) (r1 r2 r3 : Row) :
    rowSimGE q r1 r2 → rowSimGE q r2 r3 → rowSimGE q r1 r3 := by
  intro h12 h23
  exact (simGE_iff q _ _).mpr
    (le_trans ((simGE_iff q _ _).mp h23) ((simGE_iff q _ _).mp h12))

/-- Sortedness, membership and length facts for the main similarity query. -/
theorem similarMain_spec (db : List Row) (q : List ℚ) (limit : ℕ) :
    (similarMain db q limit).length ≤ limit ∧
    (∀ r ∈ similarMain db q limit, r ∈ db ∧ r.embedding.isSome = true) ∧
    List.Sorted (fun r1 r2 : Row =>
        cosineSimilarity (r2.embedding.getD []) q ≤
          cosineSimilarity (r1.embedding.getD []) q)
      (similarMain db q limit) := by
  haveI : IsTotal Row (rowSimGE q) := ⟨rowSimGE_total q⟩
  haveI : IsTrans Row (rowSimGE q) := ⟨rowSimGE_trans q⟩
  refine ⟨?_, ?_, ?_⟩
  · unfold similarMain
    rw [List.length_take]
    exact min_le_left _ _
  · intro r hr
    have h1 : r ∈ (db.filter (fun r => r.embedding.isSome)).insertionSort
        (rowSimGE q) :=
      List.take_subset _ _ hr
    have h2 : r ∈ db.filter (fun r => r.embedding.isSome) :=
      (List.mem_insertionSort (rowSimGE q)).mp h1
    have h3 := List.mem_filter.mp h2
    exact ⟨h3.1, h3.2⟩
  · have hsorted : List.Sorted (rowSimGE q)
        ((db.filter (fun r => r.embedding.isSome)).insertionSort (rowSimGE q)) :=
      List.sorted_insertionSort (rowSimGE q) _
    have htake : List.Sorted (rowSimGE q) (similarMain db q limit) :=
      List.Pairwise.sublist (List.take_sublist _ _) hsorted
    exact htake.imp (fun h => (simGE_iff q _ _).mp h)

/-- Example rows of the spec's ranking scenario (D = 2). -/
def exRowA : Row :=
  ⟨("pdf".data), ("A".data), 0, ("docA".data), some [1, 0]⟩

def exRowB : Row :=
  ⟨("pdf".data), ("B".data), 0, ("docB".data), some [0, 1]⟩

def exRowC : Row :=
  ⟨("pdf".data), ("C".data), 0, ("docC".data), some [9/10, 1/10]⟩

/-- B=[0,1] does not rank before C=[0.9,0.1] for the query Q=[1,0]. -/
theorem exRow_cmp_BC : ¬ rowSimGE [1, 0] exRowB exRowC := by
  show ¬ (simGE [1, 0] [0, 1] [9/10, 1/10] = true)
  norm_num [simGE, simGEscalar, dotQ]

/-- A=[1,0] ranks before C=[0.9,0.1] for the query Q=[1,0]. -/
theorem exRow_cmp_AC : rowSimGE [1, 0] exRowA exRowC := by
  show simGE [1, 0] [1, 0] [9/10, 1/10] = true
  norm_num [simGE, simGEscalar, dotQ]

theorem exRows_sorted :
    List.insertionSort (rowSimGE [1, 0]) [exRowA, exRowB, exRowC] =
      [exRowA, exRowC, exRowB] := by
  have h1 : List.orderedInsert (rowSimGE [1, 0]) exRowB [exRowC] =
      [exRowC, exRowB] := by
    simp only [List.orderedInsert]
    rw [if_neg exRow_cmp_BC]
  have h2 : List.orderedInsert (rowSimGE [1, 0]) exRowA [exRowC, exRowB] =
      [exRowA, exRowC, exRowB] := by
    simp only [List.orderedInsert]
    rw [if_pos exRow_cmp_AC]
  calc List.insertionSort (rowSimGE [1, 0]) [exRowA, exRowB, exRowC]
      = List.orderedInsert (rowSimGE [1, 0]) exRowA
          (List.orderedInsert (rowSimGE [1, 0]) exRowB
            (List.orderedInsert (rowSimGE [1, 0]) exRowC [])) := rfl
    _ = [exRowA, exRowC, exRowB] := by
        simp only [List.orderedInsert_nil]
        rw [h1, h2]

/-- C1: `findSimilarChunks` returns at most `k` rows, all drawn from the
store and all with a non-absent embedding, ordered by descending cosine
similarity (`similarity = 1 - cosineDistance`) to the query vector; on the
spec's example store A=[1,0], B=[0,1], C=[0.9,0.1] with query Q=[1,0],
A ranks before C before B, and `k = 2` returns `[A, C]`. -/
theorem findSimilarChunks_ranking :
    (∀ (dim : ℕ) (db : List Row) (q : List ℚ) (k : ℕ),
      (findSimilarChunks dim db q k).length ≤ k ∧
      (∀ r ∈ findSimilarChunks dim db q k, r ∈ db ∧ r.embedding.isSome = true) ∧
      List.Sorted (fun r1 r2 : Row =>
          cosineSimilarity (r2.embedding.getD []) q ≤
            cosineSimilarity (r1.embedding.getD []) q)
        (findSimilarChunks dim db q k)) ∧
    findSimilarChunks 2 [exRowA, exRowB, exRowC] [1, 0] 2 = [exRowA, exRowC] ∧
    findSimilarChunks 2 [exRowA, exRowB, exRowC] [1, 0] 3 =
      [exRowA, exRowC, exRowB] := by
  refine ⟨?_, ?_, ?_⟩
  case refine_2 =>
    calc findSimilarChunks 2 [exRowA, exRowB, exRowC] [1, 0] 2
        = (List.insertionSort (rowSimGE [1, 0]) [exRowA, exRowB, exRowC]).take 2 :=
          rfl
      _ = [exRowA, exRowC] := by rw [exRows_sorted]; rfl
  case refine_3 =>
    calc findSimilarChunks 2 [exRowA, exRowB, exRowC] [1, 0] 3
        = (List.insertionSort (rowSimGE [1, 0]) [exRowA, exRowB, exRowC]).take 3 :=
          rfl
      _ = [exRowA, exRowC, exRowB] := by rw [exRows_sorted]; rfl
  intro dim db q k
  unfold findSimilarChunks
  by_cases hq : q.length ≠ dim
  · rw [if_pos hq]
    refine ⟨Nat.zero_le k, ?_, List.sorted_nil⟩
    intro r hr
    simp at hr
  · rw [if_neg hq]
    exact similarMain_spec db q k

/-- C1 witness: evaluates the query on the example store. -/
theorem findSimilarChunks_ranking_witness :
    (findSimilarChunks 2 [exRowA, exRowB, exRowC] [1, 0] 2).length ≤ 2 ∧
      findSimilarChunks 2 [exRowA, exRowB, exRowC] [1, 0] 2 = [exRowA, exRowC] :=
  ⟨(findSimilarChunks_ranking.1 2 [exRowA, exRowB, exRowC] [1, 0] 2).1,
    findSimilarChunks_ranking.2.1⟩


/-! ### Store and ingestion model
(`sourceExists`, `storeChunks`, `loadAllData`, ragService.ts lines 237-412)

Remote calls are oracles; a thrown exception is an `Option Err` threaded
alongside the mutated database state, so the state after a failure remains
observable (the real store keeps already-executed writes when a later
statement throws: there is no enclosing transaction).
-/

inductive Err
  | store
  | typeErr
  | embed
  | fetch
  | generation
  | extract
deriving DecidableEq

inductive Event
  | fetchSrc (sourceId : List Char)
  | embedCall (text : List Char)
  | delRow (source sourceId : List Char)
  | insRow (source sourceId : List Char) (idx : ℕ)
deriving DecidableEq

/-- The rows stored for a `(source, source_id)` pair, in table order. -/
def rowsFor (db : List Row) (s id : List Char) : List Row :=
  db.filter (fun r => r.source = s ∧ r.source_id = id)

/-- Effect of the `DELETE ... WHERE source = .. AND source_id = ..` issued
by `storeChunks` (ragService.ts lines 260-266). -/
def removeRows (db : List Row) (s id : List Char) : List Row :=
  db.filter (fun r => ¬(r.source = s ∧ r.source_id = id))

/-- Function `sourceExists` (ragService.ts lines 237-250): `KnowledgeBase.count` for
the pair, compared with 0; a store error is caught and reported as `false`. -/
def sourceExists (countResult : Except Err ℕ) : Bool :=
  match countResult with
  | .error _ => false
  | .ok n => decide (0 < n)

/-- Insert loop of `storeChunks` (ragService.ts lines 273-284): one raw
`INSERT` per chunk, `chunk_index = i`.  `failAt` injects a store failure at
a given index (the exception propagates); a missing `embeddings[i]` makes
the JS expression `embeddings[i].join(',')` throw before any query runs. -/
def storeChunksGo (s id : List Char) (embs : List (List ℚ)) (failAt : Option ℕ) :
    ℕ → List (List Char) → List Row → List Row × Option Err × List Event
  | _, [], db => (db, none, [])
  | i, c :: cs, db =>
    match embs.get? i with
    | none => (db, some Err.typeErr, [])
    | some v =>
      if failAt = some i then (db, some Err.store, [Event.insRow s id i])
      else
        let r := storeChunksGo s id embs failAt (i + 1) cs
          (db ++ [⟨s, id, i, c, some v⟩])
        (r.1, r.2.1, Event.insRow s id i :: r.2.2)

/-- Function `storeChunks` (ragService.ts lines 253-290): delete all rows for the
pair, then insert the chunks one by one; the catch block rethrows. -/
def storeChunks (db : List Row) (s id : List Char) (chunks : List (List Char))
    (embs : List (List ℚ)) (failAt : Option ℕ) :
    List Row × Option Err × List Event :=
  let r := storeChunksGo s id embs failAt 0 chunks (removeRows db s id)
  (r.1, r.2.1, Event.delRow s id :: r.2.2)

/-- The rows `storeChunks` inserts for a chunk list starting at index `i`. -/
def newRows (s id : List Char) (embs : List (List ℚ)) :
    ℕ → List (List Char) → List Row
  | _, [] => []
  | i, c :: cs => ⟨s, id, i, c, some (embs.getD i [])⟩ :: newRows s id embs (i + 1) cs

/-- The insert-attempt events for a chunk list starting at index `i`. -/
def insEvents (s id : List Char) : ℕ → List (List Char) → List Event
  | _, [] => []
  | i, _ :: cs => Event.insRow s id i :: insEvents s id (i + 1) cs

/-- A configured source: its category, identifier, and acquisition call
(`loadPDF` / `loadArticle` / the joined messages of `loadSlackChannel`). -/
structure SourceSpec where
  source : List Char
  sourceId : List Char
  fetch : Except Err (List Char)

/-- Oracles for a batch run: the embedding model, and an injected store
failure index for the insert loop (none = store healthy). -/
structure IngestEnv where
  embed : List Char → Except Err (List ℚ)
  storeFailAt : Option ℕ

/-- The per-chunk embedding loop (ragService.ts lines 320-328 etc.):
sequential calls, first failure propagates. -/
def embedAll (env : IngestEnv) :
    List (List Char) → List (List ℚ) × Option Err × List Event
  | [] => ([], none, [])
  | c :: cs =>
    match env.embed c with
    | .error e => ([], some e, [Event.embedCall c])
    | .ok v =>
      let r := embedAll env cs
      (v :: r.1, r.2.1, Event.embedCall c :: r.2.2)

/-- One iteration of a `loadAllData` source loop (ragService.ts lines
305-331): skip when the pair exists, else fetch, chunk, embed each chunk,
and store; any failure propagates out of the iteration. -/
def ingestOne (env : IngestEnv) (db : List Row) (spec : SourceSpec) :
    List Row × Option Err × List Event :=
  if sourceExists (Except.ok (rowsFor db spec.source spec.sourceId).length) then
    (db, none, [])
  else
    match spec.fetch with
    | .error e => (db, some e, [Event.fetchSrc spec.sourceId])
    | .ok text =>
      let chunks := chunkText text 400
      let er := embedAll env chunks
      match er.2.1 with
      | some e => (db, some e, Event.fetchSrc spec.sourceId :: er.2.2)
      | none =>
        let sr := storeChunks db spec.source spec.sourceId chunks er.1
          env.storeFailAt
        (sr.1, sr.2.1, Event.fetchSrc spec.sourceId :: (er.2.2 ++ sr.2.2))

/-- Function `loadAllData` (ragService.ts lines 293-412): the source loops run inside
a single `try { ... } catch { ...; throw error; }`, so the first failing
iteration rethrows and the remaining sources are not processed. -/
def loadAllData (env : IngestEnv) (db : List Row) :
    List SourceSpec → List Row × Option Err × List Event
  | [] => (db, none, [])
  | spec :: rest =>
    let r := ingestOne env db spec
    match r.2.1 with
    | some e => (r.1, some e, r.2.2)
    | none =>
      let r2 := loadAllData env r.1 rest
      (r2.1, r2.2.1, r.2.2 ++ r2.2.2)



/-! ### Lemmas about the store -/

theorem rowsFor_append (A B : List Row) (s id : List Char) :
    rowsFor (A ++ B) s id = rowsFor A s id ++ rowsFor B s id :=
  List.filter_append _ _

theorem rowsFor_cons (r : Row) (X : List Row) (s id : List Char) :
    rowsFor (r :: X) s id =
      if r.source = s ∧ r.source_id = id then r :: rowsFor X s id
      else rowsFor X s id := by
  by_cases h : r.source = s ∧ r.source_id = id
  · rw [if_pos h, rowsFor, List.filter_cons, if_pos (decide_eq_true h)]
    rfl
  · rw [if_neg h, rowsFor, List.filter_cons, if_neg (by simpa using h)]
    rfl

theorem removeRows_cons (r : Row) (X : List Row) (s id : List Char) :
    removeRows (r :: X) s id =
      if r.source = s ∧ r.source_id = id then removeRows X s id
      else r :: removeRows X s id := by
  by_cases h : r.source = s ∧ r.source_id = id
  · rw [if_pos h, removeRows, List.filter_cons, if_neg (by simpa using h)]
    rfl
  · rw [if_neg h, removeRows, List.filter_cons,
      if_pos (decide_eq_true (p := ¬(r.source = s ∧ r.source_id = id)) h)]
    rfl

theorem rowsFor_removeRows (db : List Row) (s id : List Char) :
    rowsFor (removeRows db s id) s id = [] := by
  induction db with
  | nil => rfl
  | cons r db ih =>
    rw [removeRows_cons]
    by_cases hdel : r.source = s ∧ r.source_id = id
    · rw [if_pos hdel]
      exact ih
    · rw [if_neg hdel, rowsFor_cons, if_neg hdel]
      exact ih

theorem rowsFor_removeRows_ne (db : List Row) (s id s' id' : List Char)
    (hne : ¬(s' = s ∧ id' = id)) :
    rowsFor (removeRows db s id) s' id' = rowsFor db s' id' := by
  induction db with
  | nil => rfl
  | cons r db ih =>
    rw [removeRows_cons, rowsFor_cons]
    by_cases hdel : r.source = s ∧ r.source_id = id
    · rw [if_pos hdel,
        if_neg (fun hm => hne ⟨hm.1.symm.trans hdel.1, hm.2.symm.trans hdel.2⟩),
        ih]
    · rw [if_neg hdel, rowsFor_cons]
      by_cases hm : r.source = s' ∧ r.source_id = id'
      · rw [if_pos hm, if_pos hm, ih]
      · rw [if_neg hm, if_neg hm, ih]

/-- Every row produced by `newRows` carries the written key. -/
theorem newRows_key (s id : List Char) (embs : List (List ℚ)) :
    ∀ (cs : List (List Char)) (i : ℕ) (r : Row),
      r ∈ newRows s id embs i cs → r.source = s ∧ r.source_id = id := by
  intro cs
  induction cs with
  | nil => intro i r hr; simp [newRows] at hr
  | cons c cs ih =>
    intro i r hr
    rw [newRows] at hr
    rcases List.mem_cons.mp hr with h | h
    · subst h
      exact ⟨rfl, rfl⟩
    · exact ih (i + 1) r h

theorem rowsFor_newRows (s id : List Char) (embs : List (List ℚ))
    (cs : List (List Char)) (i : ℕ) :
    rowsFor (newRows s id embs i cs) s id = newRows s id embs i cs := by
  rw [rowsFor, List.filter_eq_self]
  intro r hr
  obtain ⟨h1, h2⟩ := newRows_key s id embs cs i r hr
  simp [h1, h2]

theorem rowsFor_newRows_ne (s id s' id' : List Char) (embs : List (List ℚ))
    (hne : ¬(s' = s ∧ id' = id)) (cs : List (List Char)) (i : ℕ) :
    rowsFor (newRows s id embs i cs) s' id' = [] := by
  rw [rowsFor, List.filter_eq_nil_iff]
  intro r hr
  obtain ⟨h1, h2⟩ := newRows_key s id embs cs i r hr
  simp [h1, h2]
  intro h3 h4
  exact hne ⟨h3.symm, h4.symm⟩

theorem newRows_length (s id : List Char) (embs : List (List ℚ)) :
    ∀ (cs : List (List Char)) (i : ℕ),
      (newRows s id embs i cs).length = cs.length := by
  intro cs
  induction cs with
  | nil => intro i; rfl
  | cons c cs ih =>
    intro i
    simpa [newRows] using ih (i + 1)

/-- Success path of the insert loop. -/
theorem storeChunksGo_ok (s id : List Char) (embs : List (List ℚ)) :
    ∀ (cs : List (List Char)) (i : ℕ) (db : List Row),
      (∀ j, j < cs.length → i + j < embs.length) →
      storeChunksGo s id embs none i cs db =
        (db ++ newRows s id embs i cs, none, insEvents s id i cs) := by
  intro cs
  induction cs with
  | nil =>
    intro i db _
    simp [storeChunksGo, newRows, insEvents]
  | cons c cs ih =>
    intro i db h
    have hi : i < embs.length := by
      have := h 0 (by simp)
      simpa using this
    rcases hv : embs[i]? with _ | v
    · exact absurd (List.getElem?_eq_none_iff.mp hv) (by omega)
    · have hgo : storeChunksGo s id embs none i (c :: cs) db =
          (let r := storeChunksGo s id embs none (i + 1) cs
            (db ++ [⟨s, id, i, c, some v⟩])
          (r.1, r.2.1, Event.insRow s id i :: r.2.2)) := by
        simp [storeChunksGo, hv]
      rw [hgo]
      simp only [ih (i + 1) (db ++ [⟨s, id, i, c, some v⟩])
        (fun j hj => by have := h (j + 1) (by simpa using hj); omega)]
      have hgetD : embs.getD i [] = v := by
        rw [List.getD_eq_getElem?_getD, hv]
        rfl
      simp [newRows, insEvents, hgetD, hv]

/-- Failure path of the insert loop: the store error at index `k` leaves
exactly the first `k - i` rows inserted. -/
theorem storeChunksGo_fail (s id : List Char) (embs : List (List ℚ)) :
    ∀ (cs : List (List Char)) (i : ℕ) (db : List Row) (k : ℕ),
      (∀ j, j < cs.length → i + j < embs.length) →
      i ≤ k → k - i < cs.length →
      storeChunksGo s id embs (some k) i cs db =
        (db ++ newRows s id embs i (cs.take (k - i)), some Err.store,
          insEvents s id i (cs.take (k - i)) ++ [Event.insRow s id k]) := by
  intro cs
  induction cs with
  | nil =>
    intro i db k _ _ hk
    simp at hk
  | cons c cs ih =>
    intro i db k h hik hk
    have hi : i < embs.length := by
      have := h 0 (by simp)
      simpa using this
    rcases hv : embs[i]? with _ | v
    · exact absurd (List.getElem?_eq_none_iff.mp hv) (by omega)
    · by_cases hki : k = i
      · subst hki
        have hgo : storeChunksGo s id embs (some k) k (c :: cs) db =
            (db, some Err.store, [Event.insRow s id k]) := by
          simp [storeChunksGo, hv]
        rw [hgo]
        simp [Nat.sub_self, newRows, insEvents]
      · have hlt : i < k := lt_of_le_of_ne hik (fun h => hki h.symm)
        have hgo : storeChunksGo s id embs (some k) i (c :: cs) db =
            (let r := storeChunksGo s id embs (some k) (i + 1) cs
              (db ++ [⟨s, id, i, c, some v⟩])
            (r.1, r.2.1, Event.insRow s id i :: r.2.2)) := by
          simp [storeChunksGo, hv]
          intro heq
          omega
        rw [hgo]
        simp only [ih (i + 1) (db ++ [⟨s, id, i, c, some v⟩]) k
          (fun j hj => by have := h (j + 1) (by simpa using hj); omega)
          (by omega) (by simp at hk ⊢; omega)]
        have hgetD : embs.getD i [] = v := by
          rw [List.getD_eq_getElem?_getD, hv]
          rfl
        have htake : (c :: cs).take (k - i) = c :: cs.take (k - (i + 1)) := by
          have : k - i = (k - (i + 1)) + 1 := by omega
          rw [this, List.take_succ_cons]
        rw [htake]
        simp [newRows, insEvents, hgetD, hv]



/-! ### Slack pagination (`loadSlackChannel`, ragService.ts lines 189-234) -/

/-- One page of the paginated message feed, as the code reads it:
`response.ok`, `data.messages` (each message a possibly-missing `user` and
`text`), and whether `data.hasMore === false`. -/
structure SlackPage where
  httpOk : Bool
  messages : Option (List (Option (List Char) × Option (List Char)))
  hasMoreFalse : Bool

/-- Per-message formatting: `user: text` when both are present, otherwise
`msg.text || ''`. -/
def formatMsg (m : Option (List Char) × Option (List Char)) : List Char :=
  match m.1, m.2 with
  | some u, some t => u ++ ':' :: ' ' :: t
  | _, t => t.getD []

/-- Computation of `hasMore`: `data.hasMore !== false && data.messages && data.messages.length > 0`. -/
def slackHasMore (p : SlackPage) : Bool :=
  !p.hasMoreFalse &&
    (match p.messages with
     | some l => !l.isEmpty
     | none => false)

/-- The `while (hasMore)` pagination loop.  A non-ok response breaks; a
thrown fetch error is caught by the surrounding try/catch, which falls
through to `return messages`, so the pair carries the error for
observation while the collected messages survive.  The `fuel` argument
bounds the iteration count (the real loop is unbounded). -/
def loadSlackGo (pages : ℕ → Except Err SlackPage) :
    ℕ → ℕ → List (List Char) → List (List Char) × Option Err
  | 0, _, acc => (acc, none)
  | fuel + 1, page, acc =>
    match pages page with
    | .error e => (acc, some e)
    | .ok p =>
      if p.httpOk = false then (acc, none)
      else
        let newMsgs :=
          match p.messages with
          | some l => (l.map formatMsg).filter (fun t => trimText t ≠ [])
          | none => []
        if slackHasMore p then loadSlackGo pages fuel (page + 1) (acc ++ newMsgs)
        else (acc ++ newMsgs, none)

/-- Function `loadSlackChannel` never throws: it returns whatever messages were
collected before any failure. -/
def loadSlackChannel (pages : ℕ → Except Err SlackPage) (fuel : ℕ) :
    List (List Char) :=
  (loadSlackGo pages fuel 1 []).1

/-! ### Embedding call and question answering
(`getEmbedding` / `ask`, ragService.ts lines 37-101 and 484-560) -/

/-- Model of `getEmbedding` after the response-shape extraction (collapsed into the
oracle's value): an extraction yielding no non-empty array throws, otherwise
the vector is reconciled to the configured dimension. -/
def getEmbedding (rawResult : Except Err (List ℚ)) : Except Err (List ℚ) :=
  match rawResult with
  | .error e => .error e
  | .ok raw =>
    if raw = [] then .error Err.extract
    else .ok (normalizeEmbedding EMBEDDING_DIMENSION raw)

def apos : Char := Char.ofNat 39

/-- Sentinel returned by `ask` when the store is empty (ragService.ts line 493). -/
def emptyKbSentinel : List Char :=
  ("The knowledge base is empty. Please load data first by calling the /api/load_data endpoint.").data

/-- Sentinel returned by `ask` when no similar chunks were found (ragService.ts line 511). -/
def noInfoSentinel : List Char :=
  ("I couldn".data) ++ apos ::
    ("t find any relevant information in the knowledge base to answer your question.").data

def promptHeader : List Char :=
  ("You are a helpful assistant answering questions about Lev-Boots technology based on the provided knowledge base.\n\nContext from knowledge base:\n").data

def chunkSep : List Char := ("\n\n---\n\n").data

/-- Label `[Source i+1: source - source_id]` followed by the chunk text. -/
def sourceLabel (i : ℕ) (r : Row) : List Char :=
  ("[Source ".data) ++ (Nat.repr (i + 1)).data ++ (": ".data) ++ r.source ++
    (" - ".data) ++ r.source_id ++ ("]".data) ++ '\n' :: r.chunk_content

def contextOf : ℕ → List Row → List Char
  | _, [] => []
  | i, [r] => sourceLabel i r
  | i, r :: r2 :: rs => sourceLabel i r ++ chunkSep ++ contextOf (i + 1) (r2 :: rs)

def promptMid : List Char := ("\n\nUser question: ").data

def promptInstructions : List Char :=
  ("\n\nInstructions:\n- Answer the question based ONLY on the information provided in the context above\n- If the context doesn").data ++
    apos ::
    ("t contain enough information to answer the question, say so clearly\n- Do not make up information or use knowledge outside of the provided context\n- Be concise and accurate\n- Cite the source when relevant (e.g., \"According to [source name]...\")\n\nAnswer:").data

def buildPrompt (similar : List Row) (question : List Char) : List Char :=
  promptHeader ++ contextOf 0 similar ++ promptMid ++ question ++
    promptInstructions

/-- Oracles for `ask`: the raw embedding call (post-extraction) and the
generation model. -/
structure AskEnv where
  embedRaw : List Char → Except Err (List ℚ)
  generate : List Char → Except Err (List Char)

/-- Function `ask` (ragService.ts lines 484-560). -/
def ask (env : AskEnv) (db : List Row) (question : List Char) :
    Except Err (List Char) :=
  if db.length = 0 then Except.ok emptyKbSentinel
  else
    match getEmbedding (env.embedRaw question) with
    | .error e => .error e
    | .ok qe =>
      let similar := findSimilarChunks EMBEDDING_DIMENSION db qe 5
      if similar.length = 0 then Except.ok noInfoSentinel
      else
        match env.generate (buildPrompt similar question) with
        | .error e => .error e
        | .ok answer => Except.ok answer

theorem normalizeEmbedding_length (xs : List ℚ) :
    (normalizeEmbedding 768 xs).length = 768 := by
  rw [normalizeEmbedding, if_pos rfl]
  by_cases h : 768 ≤ xs.length
  · rw [if_pos h, List.length_take]
    omega
  · rw [if_neg h, List.length_append, List.length_replicate]
    omega



/-! ### Claim theorems for the store and the batch driver -/

/-- C5: after `storeChunks` completes for a pair, exactly the new chunk
rows are stored for the pair, each with `chunk_index` equal to its position,
none of the pair's previous rows remain, and other pairs are untouched. -/
theorem storeChunks_replace (db : List Row) (s id : List Char)
    (chunks : List (List Char)) (embs : List (List ℚ))
    (hlen : chunks.length ≤ embs.length) :
    (storeChunks db s id chunks embs none).2.1 = none ∧
    rowsFor (storeChunks db s id chunks embs none).1 s id =
      newRows s id embs 0 chunks ∧
    ∀ s' id', ¬(s' = s ∧ id' = id) →
      rowsFor (storeChunks db s id chunks embs none).1 s' id' =
        rowsFor db s' id' := by
  have hgo := storeChunksGo_ok s id embs chunks 0 (removeRows db s id)
    (fun j hj => by omega)
  have hsc : storeChunks db s id chunks embs none =
      (removeRows db s id ++ newRows s id embs 0 chunks, none,
        Event.delRow s id :: insEvents s id 0 chunks) := by
    simp only [storeChunks, hgo]
  rw [hsc]
  refine ⟨rfl, ?_, ?_⟩
  · rw [rowsFor_append, rowsFor_removeRows, rowsFor_newRows, List.nil_append]
  · intro s' id' hne
    rw [rowsFor_append, rowsFor_removeRows_ne db s id s' id' hne,
      rowsFor_newRows_ne s id s' id' embs hne, List.append_nil]

def wOldRow : Row := ⟨("pdf".data), ("x".data), 0, ("old".data), none⟩

def wOtherRow : Row := ⟨("article".data), ("y".data), 0, ("other".data), none⟩

def wDb : List Row := [wOldRow, wOtherRow]

def wChunks : List (List Char) := [("a".data), ("b".data)]

def wEmbs : List (List ℚ) := [[1], [2]]

/-- C5 witness: a concrete replacement over a two-row store. -/
theorem storeChunks_replace_witness :
    wChunks.length ≤ wEmbs.length ∧
      ((storeChunks wDb ("pdf".data) ("x".data) wChunks wEmbs none).2.1 = none ∧
       rowsFor (storeChunks wDb ("pdf".data) ("x".data) wChunks wEmbs none).1
           ("pdf".data) ("x".data) =
         newRows ("pdf".data) ("x".data) wEmbs 0 wChunks ∧
       ∀ s' id', ¬(s' = ("pdf".data) ∧ id' = ("x".data)) →
         rowsFor (storeChunks wDb ("pdf".data) ("x".data) wChunks wEmbs none).1
             s' id' =
           rowsFor wDb s' id') :=
  ⟨by decide, storeChunks_replace wDb ("pdf".data) ("x".data) wChunks wEmbs
    (by decide)⟩

/-- C9: with no enclosing transaction, a store failure at insert `i` leaves
the pair's old rows deleted and exactly the first `i` new chunks persisted
(a proper prefix of the new list), while other pairs are untouched. -/
theorem storeChunks_failure_state (db : List Row) (s id : List Char)
    (chunks : List (List Char)) (embs : List (List ℚ)) (i : ℕ)
    (hlen : chunks.length ≤ embs.length) (hi : i < chunks.length) :
    (storeChunks db s id chunks embs (some i)).2.1 = some Err.store ∧
    rowsFor (storeChunks db s id chunks embs (some i)).1 s id =
      newRows s id embs 0 (chunks.take i) ∧
    (newRows s id embs 0 (chunks.take i)).length = i ∧
    ∀ s' id', ¬(s' = s ∧ id' = id) →
      rowsFor (storeChunks db s id chunks embs (some i)).1 s' id' =
        rowsFor db s' id' := by
  have hgo := storeChunksGo_fail s id embs chunks 0 (removeRows db s id) i
    (fun j hj => by omega) (Nat.zero_le i) (by omega)
  rw [Nat.sub_zero] at hgo
  have hsc : storeChunks db s id chunks embs (some i) =
      (removeRows db s id ++ newRows s id embs 0 (chunks.take i),
        some Err.store,
        Event.delRow s id ::
          (insEvents s id 0 (chunks.take i) ++ [Event.insRow s id i])) := by
    simp only [storeChunks, hgo]
  rw [hsc]
  refine ⟨rfl, ?_, ?_, ?_⟩
  · rw [rowsFor_append, rowsFor_removeRows, rowsFor_newRows, List.nil_append]
  · rw [newRows_length, List.length_take]
    omega
  · intro s' id' hne
    rw [rowsFor_append, rowsFor_removeRows_ne db s id s' id' hne,
      rowsFor_newRows_ne s id s' id' embs hne, List.append_nil]

/-- C9 witness: failure at the second insert keeps exactly the first chunk. -/
theorem storeChunks_failure_state_witness :
    (wChunks.length ≤ wEmbs.length ∧ 1 < wChunks.length) ∧
      ((storeChunks wDb ("pdf".data) ("x".data) wChunks wEmbs (some 1)).2.1 =
        some Err.store ∧
       rowsFor (storeChunks wDb ("pdf".data) ("x".data) wChunks wEmbs
           (some 1)).1 ("pdf".data) ("x".data) =
         newRows ("pdf".data) ("x".data) wEmbs 0 (wChunks.take 1) ∧
       (newRows ("pdf".data) ("x".data) wEmbs 0 (wChunks.take 1)).length = 1 ∧
       ∀ s' id', ¬(s' = ("pdf".data) ∧ id' = ("x".data)) →
         rowsFor (storeChunks wDb ("pdf".data) ("x".data) wChunks wEmbs
             (some 1)).1 s' id' =
           rowsFor wDb s' id') :=
  ⟨⟨by decide, by decide⟩,
    (storeChunks_failure_state wDb ("pdf".data) ("x".data) wChunks wEmbs 1
      (by decide) (by decide)).imp id (fun h => h)⟩

/-- C6: when chunk rows already exist for a pair, the ingestion iteration
short-circuits: no fetch, no embedding call, no store write, and the store
is unchanged; hence a second run right after a successful one that
persisted rows is a no-op. -/
theorem ingestSource_skip :
    (∀ (env : IngestEnv) (db : List Row) (spec : SourceSpec),
      rowsFor db spec.source spec.sourceId ≠ [] →
      ingestOne env db spec = (db, none, [])) ∧
    (∀ (env : IngestEnv) (db : List Row) (spec : SourceSpec),
      (ingestOne env db spec).2.1 = none →
      rowsFor (ingestOne env db spec).1 spec.source spec.sourceId ≠ [] →
      ingestOne env (ingestOne env db spec).1 spec =
        ((ingestOne env db spec).1, none, [])) := by
  have hskip : ∀ (env : IngestEnv) (db : List Row) (spec : SourceSpec),
      rowsFor db spec.source spec.sourceId ≠ [] →
      ingestOne env db spec = (db, none, []) := by
    intro env db spec h
    have hlen : 0 < (rowsFor db spec.source spec.sourceId).length :=
      List.length_pos.mpr h
    have hcond : sourceExists
        (Except.ok (rowsFor db spec.source spec.sourceId).length) = true := by
      simp [sourceExists]
      omega
    rw [ingestOne, if_pos hcond]
  refine ⟨hskip, ?_⟩
  intro env db spec _ h2
  exact hskip env _ spec h2

def wEnv : IngestEnv := ⟨fun _ => Except.ok [], none⟩

def wSpec : SourceSpec := ⟨("pdf".data), ("x".data), Except.ok ("t".data)⟩

/-- C6 witness: a loaded pair is skipped. -/
theorem ingestSource_skip_witness :
    rowsFor [wOldRow] wSpec.source wSpec.sourceId ≠ [] ∧
      ingestOne wEnv [wOldRow] wSpec = ([wOldRow], none, []) :=
  ⟨by decide, ingestSource_skip.1 wEnv [wOldRow] wSpec (by decide)⟩

def cexEnv : IngestEnv := ⟨fun _ => Except.error Err.embed, none⟩

def cexSpecA : SourceSpec := ⟨("pdf".data), ("a".data), Except.ok ("hello".data)⟩

def cexSpecB : SourceSpec := ⟨("pdf".data), ("b".data), Except.ok ("world".data)⟩

/-- C2 counterexample: with two configured sources and an embedding model
that fails, the failure of the first source's ingestion aborts the whole
batch — the second source is never fetched — and the error propagates out
of `loadAllData`. -/
theorem loadAllData_abort_counterexample :
    (loadAllData cexEnv [] [cexSpecA, cexSpecB]).2.1 = some Err.embed ∧
    (loadAllData cexEnv [] [cexSpecA, cexSpecB]).2.2 =
      [Event.fetchSrc ("a".data), Event.embedCall ("hello".data)] ∧
    Event.fetchSrc ("b".data) ∉ (loadAllData cexEnv [] [cexSpecA, cexSpecB]).2.2 := by
  refine ⟨by decide, by decide, by decide⟩

/-- C2 amended: a failure in one source's ingestion is rethrown by
`loadAllData`'s single try/catch: the batch stops at the failing source,
the remaining sources are not attempted, and the error propagates to the
caller. -/
theorem loadAllData_aborts_on_failure :
    ∀ (env : IngestEnv) (db : List Row) (spec : SourceSpec)
      (rest : List SourceSpec) (e : Err),
      (ingestOne env db spec).2.1 = some e →
      loadAllData env db (spec :: rest) =
        ((ingestOne env db spec).1, some e, (ingestOne env db spec).2.2) := by
  intro env db spec rest e h
  simp only [loadAllData, h]

/-- C2 amended witness: the failing two-source batch stops after source 1. -/
theorem loadAllData_aborts_on_failure_witness :
    (ingestOne cexEnv [] cexSpecA).2.1 = some Err.embed ∧
      loadAllData cexEnv [] [cexSpecA, cexSpecB] =
        ((ingestOne cexEnv [] cexSpecA).1, some Err.embed,
          (ingestOne cexEnv [] cexSpecA).2.2) :=
  ⟨by decide,
    loadAllData_aborts_on_failure cexEnv [] cexSpecA [cexSpecB] Err.embed
      (by decide)⟩

def cexPages : ℕ → Except Err SlackPage := fun _ => Except.error Err.fetch

/-- C8 counterexample: a store failure during the existence check does not
propagate — `sourceExists` catches it and returns `false` — and a fetch
failure while loading a chat-feed source does not propagate either —
`loadSlackChannel` catches it and returns the messages collected so far
(here none), a substituted default in both cases. -/
theorem swallowed_failures_counterexample :
    sourceExists (Except.error Err.store) = false ∧
    (loadSlackGo cexPages 3 1 []).2 = some Err.fetch ∧
    loadSlackChannel cexPages 3 = [] := by
  refine ⟨rfl, rfl, rfl⟩

/-- C8 amended: store failures during the existence check and chat-feed
fetch failures are swallowed (`sourceExists` returns `false`,
`loadSlackChannel` returns the messages collected so far); the other
failures — a source fetch, an embedding call, a store write — propagate
to the immediate caller with no retry and no substituted result. -/
theorem error_propagation_policy :
    (∀ e, sourceExists (Except.error e) = false) ∧
    (∀ (pages : ℕ → Except Err SlackPage) (fuel : ℕ) (e : Err), 0 < fuel →
      pages 1 = Except.error e →
      (loadSlackGo pages fuel 1 []).2 = some e ∧
        loadSlackChannel pages fuel = []) ∧
    (∀ (env : IngestEnv) (db : List Row) (s id : List Char) (e : Err)
      (fe : Except Err (List Char)),
      rowsFor db s id = [] → fe = Except.error e →
      ingestOne env db ⟨s, id, fe⟩ = (db, some e, [Event.fetchSrc id])) ∧
    (∀ (env : IngestEnv) (c : List Char) (cs : List (List Char)) (e : Err),
      env.embed c = Except.error e →
      embedAll env (c :: cs) = ([], some e, [Event.embedCall c])) ∧
    (∀ (db : List Row) (s id c : List Char) (cs : List (List Char))
      (v : List ℚ) (vs : List (List ℚ)),
      (storeChunks db s id (c :: cs) (v :: vs) (some 0)).2.1 =
        some Err.store) := by
  refine ⟨fun e => rfl, ?_, ?_, ?_, ?_⟩
  · intro pages fuel e hfuel hpage
    cases fuel with
    | zero => omega
    | succ fuel =>
      constructor
      · show (loadSlackGo pages (fuel + 1) 1 []).2 = some e
        simp [loadSlackGo, hpage]
      · show (loadSlackGo pages (fuel + 1) 1 []).1 = []
        simp [loadSlackGo, hpage]
  · intro env db s id e fe hrows hfe
    have hcond : sourceExists
        (Except.ok (rowsFor db s id).length) = false := by
      rw [hrows]
      rfl
    rw [ingestOne]
    show (if sourceExists (Except.ok (rowsFor db s id).length) = true then _
      else _) = _
    rw [hcond]
    simp only [Bool.false_eq_true, if_false]
    rw [hfe]
  · intro env c cs e h
    simp [embedAll, h]
  · intro db s id c cs v vs
    rfl

/-- C8 amended witness: concrete instances of the swallowing and of the
propagation conjuncts. -/
theorem error_propagation_policy_witness :
    sourceExists (Except.error Err.store) = false ∧
      (0 < 2 ∧ cexPages 1 = Except.error Err.fetch ∧
        loadSlackChannel cexPages 2 = []) ∧
      (rowsFor [] ("pdf".data) ("z".data) = [] ∧
        ingestOne wEnv [] ⟨("pdf".data), ("z".data), Except.error Err.fetch⟩ =
          ([], some Err.fetch, [Event.fetchSrc ("z".data)])) :=
  ⟨error_propagation_policy.1 Err.store,
    ⟨by decide, rfl,
      (error_propagation_policy.2.1 cexPages 2 Err.fetch (by decide) rfl).2⟩,
    ⟨rfl,
      error_propagation_policy.2.2.1 wEnv [] ("pdf".data) ("z".data) Err.fetch
        (Except.error Err.fetch) rfl rfl⟩⟩



/-! ### Claim theorems for the embedding adapter and the guard in `ask` -/

/-- C3 counterexample: with the dimension constant set to 4, the adapter
does not return the first 4 entries of `[1,2,3,4,5,6]` — the code branches
on `EMBEDDING_DIMENSION === 768` and otherwise normalizes to 1536, so the
result has length 1536, not 4. -/
theorem normalizeEmbedding_d4_counterexample :
    normalizeEmbedding 4 [1, 2, 3, 4, 5, 6] ≠ ([1, 2, 3, 4] : List ℚ) ∧
    (normalizeEmbedding 4 [1, 2, 3, 4, 5, 6]).length = 1536 := by
  have hlen : (normalizeEmbedding 4 ([1, 2, 3, 4, 5, 6] : List ℚ)).length =
      1536 := by
    rw [normalizeEmbedding, if_neg (by omega), if_neg (by simp),
      List.length_append, List.length_replicate]
    simp
  refine ⟨?_, hlen⟩
  intro h
  rw [h] at hlen
  simp at hlen

/-- C3 amended: for the dimensions the code supports (the configured value
768 and the alternative 1536), a non-empty extracted vector is truncated to
its first D entries when longer than D and right-padded with zeros to
length D when shorter, so the result always has length exactly D; for any
other value of the constant the code normalizes to 1536 instead (see the
counterexample at D = 4). -/
theorem normalizeEmbedding_truncate_pad :
    ∀ (dim : ℕ) (xs : List ℚ), (dim = 768 ∨ dim = 1536) → xs ≠ [] →
      normalizeEmbedding dim xs =
        xs.take dim ++ List.replicate (dim - xs.length) 0 ∧
      (normalizeEmbedding dim xs).length = dim := by
  intro dim xs hdim _
  rcases hdim with h | h <;> subst h
  · constructor
    · rw [normalizeEmbedding, if_pos rfl]
      by_cases h : 768 ≤ xs.length
      · rw [if_pos h, show 768 - xs.length = 0 by omega, List.replicate_zero,
          List.append_nil]
      · rw [if_neg h, List.take_of_length_le (by omega)]
    · exact normalizeEmbedding_length xs
  · constructor
    · rw [normalizeEmbedding, if_neg (by omega)]
      by_cases h : 1536 ≤ xs.length
      · rw [if_pos h, show 1536 - xs.length = 0 by omega, List.replicate_zero,
          List.append_nil]
      · rw [if_neg h, List.take_of_length_le (by omega)]
    · rw [normalizeEmbedding, if_neg (by omega)]
      by_cases h : 1536 ≤ xs.length
      · rw [if_pos h, List.length_take]
        omega
      · rw [if_neg h, List.length_append, List.length_replicate]
        omega

/-- C3 amended witness: D = 768 with a short vector. -/
theorem normalizeEmbedding_truncate_pad_witness :
    ((768 = 768 ∨ 768 = 1536) ∧ ([1, 2] : List ℚ) ≠ []) ∧
      (normalizeEmbedding 768 [1, 2] =
        ([1, 2] : List ℚ).take 768 ++
          List.replicate (768 - ([1, 2] : List ℚ).length) 0 ∧
       (normalizeEmbedding 768 ([1, 2] : List ℚ)).length = 768) :=
  ⟨⟨Or.inl rfl, by decide⟩,
    normalizeEmbedding_truncate_pad 768 [1, 2] (Or.inl rfl) (by decide)⟩

/-- C10: a query vector whose length differs from the configured dimension
makes `findSimilarChunks` return `[]` rather than raise (so `ask` would
answer with the no-relevant-information sentinel); and since `getEmbedding`
always returns a vector of length exactly 768 = D, that guard branch is
unreachable when the query vector comes from `getEmbedding`. -/
theorem findSimilarChunks_guard_unreachable :
    (∀ (db : List Row) (q : List ℚ) (k : ℕ), q.length ≠ 768 →
      findSimilarChunks 768 db q k = []) ∧
    (∀ raw : List ℚ, raw ≠ [] →
      getEmbedding (Except.ok raw) =
        Except.ok (normalizeEmbedding 768 raw) ∧
      (normalizeEmbedding 768 raw).length = 768) ∧
    (∀ (db : List Row) (q : List ℚ) (k : ℕ), q.length = 768 →
      findSimilarChunks 768 db q k = similarMain db q k) ∧
    (∀ (env : AskEnv) (db : List Row) (question : List Char) (qe : List ℚ),
      db ≠ [] →
      getEmbedding (env.embedRaw question) = Except.ok qe →
      findSimilarChunks 768 db qe 5 = [] →
      ask env db question = Except.ok noInfoSentinel) := by
  refine ⟨?_, ?_, ?_, ?_⟩
  · intro db q k h
    rw [findSimilarChunks, if_pos h]
  · intro raw h
    refine ⟨?_, normalizeEmbedding_length raw⟩
    simp [getEmbedding, EMBEDDING_DIMENSION, h]
  · intro db q k h
    rw [findSimilarChunks, if_neg (fun hn => hn h)]
  · intro env db question qe hdb hget hsim
    have h0 : ¬ db.length = 0 := fun h0 => hdb (List.length_eq_zero.mp h0)
    rw [ask, if_neg h0]
    simp only [hget]
    have hdim : findSimilarChunks EMBEDDING_DIMENSION db qe 5 = [] := hsim
    simp only [hdim, List.length_nil, if_true]

def wAskEnv : AskEnv := ⟨fun _ => Except.ok [1], fun _ => Except.ok []⟩

def wAskDb : List Row := [⟨("pdf".data), ("x".data), 0, ("c".data), none⟩]

/-- C10 witness: a store whose only row has a NULL embedding yields an
empty similarity result, and `ask` answers with the sentinel. -/
theorem findSimilarChunks_guard_unreachable_witness :
    (wAskDb ≠ [] ∧
      getEmbedding (wAskEnv.embedRaw ("q".data)) =
        Except.ok (normalizeEmbedding 768 [1]) ∧
      findSimilarChunks 768 wAskDb (normalizeEmbedding 768 [1]) 5 = []) ∧
    ask wAskEnv wAskDb ("q".data) = Except.ok noInfoSentinel := by
  have hget : getEmbedding (wAskEnv.embedRaw ("q".data)) =
      Except.ok (normalizeEmbedding 768 [1]) := rfl
  have hsim : findSimilarChunks 768 wAskDb (normalizeEmbedding 768 [1]) 5 = [] := by
    rw [findSimilarChunks_guard_unreachable.2.2.1 wAskDb
      (normalizeEmbedding 768 [1]) 5
      (findSimilarChunks_guard_unreachable.2.1 [1] (by decide)).2]
    rfl
  exact ⟨⟨by decide, hget, hsim⟩,
    findSimilarChunks_guard_unreachable.2.2.2 wAskEnv wAskDb ("q".data)
      (normalizeEmbedding 768 [1]) (by decide) hget hsim⟩

end Rag
